/-
Verification of the core algorithms of the whitewater video encoder
(`whitewater/whitewater.py`): the base-64 token codec, string padding,
the diffmap placement tracker (`FrameTracker`), the frame scanner
(`Whitewater._compare_to_previous_frame`), the option handling and the
manifest assembly.  Python integers are modelled as `Nat`/`Int`, Python
`None`-or-value results as `Option`, Python floats as exact rationals.
-/

import Mathlib

/-- The 64-symbol token alphabet `Whitewater._DIGITS_64`: upper-case letters,
lower-case letters, digits, `+`, `/`. -/
def DIGITS_64 : List Char :=
  "ABCDEFGHIJKLMNOPQRSTUVWXYZabcdefghijklmnopqrstuvwxyz0123456789+/".toList

/-- The `while num:` loop of `Whitewater._get_base64_from_base10`: repeatedly
appends `_DIGITS_64[num % 64]` and floor-divides `num` by 64, producing the
base-64 digits least-significant first. -/
def base64LoopDigits (num : Nat) : List Char :=
  if h : num = 0 then []
  else DIGITS_64.getD (num % 64) ' ' :: base64LoopDigits (num / 64)
termination_by num
decreasing_by exact Nat.div_lt_self (Nat.pos_of_ne_zero h) (by norm_num)

/-- `Whitewater._get_base64_from_base10`: `0` maps to `_DIGITS_64[0]`; otherwise
the loop digits (with a `'-'` appended for negative input) are reversed and
joined. -/
def get_base64_from_base10 (num : Int) : String :=
  if num < 0 then String.mk ((base64LoopDigits num.natAbs ++ ['-']).reverse)
  else if num = 0 then String.mk [DIGITS_64.getD 0 ' ']
  else String.mk (base64LoopDigits num.natAbs).reverse

/-- Interpretation of a string as a base-64 numeral over `DIGITS_64` (most
significant digit first).  The encoder source defines no decoder; this is the
reference reading of the claim "decoding encode(n) as a base-64 numeral over
that alphabet". -/
def decodeBase64 (s : String) : Nat :=
  s.toList.foldl (fun acc c => 64 * acc + DIGITS_64.indexOf c) 0

/-- `Whitewater._get_padded_string`.  The Python body returns `string` when its
length already equals `length`; otherwise it loops `i` over `range(1, length)`,
growing `padding` by one `char` per iteration and returning `padding + string`
at the iteration where `length - len(string) == i`.  If no iteration matches
(empty input, or input longer than `length`) the function falls off the loop
and implicitly returns `None`, modelled as `none`. -/
def get_padded_string (string : String) (length : Nat) (char : Char) : Option String :=
  if string.length = length then some string
  else (List.range' 1 (length - 1)).findSome? fun (i : Nat) =>
    if (length : Int) - string.length = (i : Int) then
      some (String.mk (List.replicate i char) ++ string)
    else none

/-- `Whitewater._add_to_framemap`: the 5-character token for one flushed run,
2 base-64 characters of run length (`'A'`-padded) appended to 3 base-64
characters of start position (`'A'`-padded); `none` models the `TypeError`
raised when `_get_padded_string` returns `None`. -/
def add_to_framemap (consecutive : Nat) (position : Int) : Option String := do
  let consecutive_64 ← get_padded_string (get_base64_from_base10 consecutive) 2 'A'
  let position_64 ← get_padded_string (get_base64_from_base10 position) 3 'A'
  return position_64 ++ consecutive_64

theorem DIGITS_64_length : DIGITS_64.length = 64 := by decide

theorem indexOf_getD_DIGITS_64 : ∀ m, m < 64 → DIGITS_64.indexOf (DIGITS_64.getD m ' ') = m := by
  decide

theorem base64LoopDigits_decode (n : Nat) :
    (base64LoopDigits n).foldr (fun c acc => 64 * acc + DIGITS_64.indexOf c) 0 = n := by
  induction n using Nat.strong_induction_on with
  | _ n ih =>
    rw [base64LoopDigits]
    by_cases h : n = 0
    · simp [h]
    · rw [dif_neg h, List.foldr_cons,
        ih (n / 64) (Nat.div_lt_self (Nat.pos_of_ne_zero h) (by norm_num)),
        indexOf_getD_DIGITS_64 (n % 64) (Nat.mod_lt n (by norm_num))]
      omega

theorem base64LoopDigits_mem (n : Nat) : ∀ c ∈ base64LoopDigits n, c ∈ DIGITS_64 := by
  induction n using Nat.strong_induction_on with
  | _ n ih =>
    intro c hc
    rw [base64LoopDigits] at hc
    by_cases h : n = 0
    · simp [h] at hc
    · rw [dif_neg h] at hc
      rcases List.mem_cons.mp hc with h1 | h1
      · subst h1
        rw [List.getD_eq_getElem DIGITS_64 ' ' (by rw [DIGITS_64_length]; exact Nat.mod_lt n (by norm_num))]
        exact List.getElem_mem _
      · exact ih (n / 64) (Nat.div_lt_self (Nat.pos_of_ne_zero h) (by norm_num)) c h1

/-- C5: the base-64 encoder maps every non-negative integer to a string over the
fixed 64-symbol alphabet A-Z, a-z, 0-9, `+`, `/`; `encode 0` is the first
alphabet symbol `"A"`; and decoding `encode n` as a base-64 numeral over that
alphabet gives back `n` (round-trip). -/
theorem C5_base64_codec (n : Nat) :
    (∀ c ∈ (get_base64_from_base10 (n : Int)).toList, c ∈ DIGITS_64) ∧
    get_base64_from_base10 0 = "A" ∧
    decodeBase64 (get_base64_from_base10 (n : Int)) = n := by
  refine ⟨?_, by decide, ?_⟩
  · by_cases h : n = 0
    · subst h; decide
    · unfold get_base64_from_base10
      rw [if_neg (by omega), if_neg (by exact_mod_cast h)]
      intro c hc
      have : c ∈ (base64LoopDigits (n : Int).natAbs).reverse := hc
      rw [List.mem_reverse] at this
      rw [Int.natAbs_ofNat] at this
      exact base64LoopDigits_mem n c this
  · by_cases h : n = 0
    · subst h; decide
    · unfold get_base64_from_base10
      rw [if_neg (by omega), if_neg (by exact_mod_cast h)]
      show (String.mk (base64LoopDigits (n : Int).natAbs).reverse).toList.foldl _ 0 = n
      rw [Int.natAbs_ofNat]
      have htl : (String.mk (base64LoopDigits n).reverse).toList = (base64LoopDigits n).reverse := rfl
      rw [htl, List.foldl_reverse]
      exact base64LoopDigits_decode n

theorem findSome?_eq_some_of_unique {α β : Type} (L : List α) (f : α → Option β) (d : α) (r : β)
    (hu : ∀ i, i ≠ d → f i = none) (hd : f d = some r) (hmem : d ∈ L) :
    L.findSome? f = some r := by
  induction L with
  | nil => cases hmem
  | cons a L ih =>
    rw [List.findSome?_cons]
    by_cases ha : a = d
    · subst ha; rw [hd]
    · rw [hu a ha]
      refine ih ?_
      rcases List.mem_cons.mp hmem with h | h
      · exact absurd h.symm ha
      · exact h

/-- C4 counterexample: for `s = "ab"`, `w = 1` the pad operation does not return
`s` unchanged (it returns `None`), and for the empty string with `w = 2` it does
not return a length-2 padded string (it returns `None`). -/
theorem C4_counterexample :
    get_padded_string "ab" 1 'A' ≠ some "ab" ∧ get_padded_string "" 2 'A' ≠ some "AA" := by
  decide

/-- C4 (amended): for `1 ≤ len(s) ≤ w` the pad operation returns `s` left-padded
with `c` to length exactly `w`; but for `len(s) > w`, and likewise for
`len(s) = 0 < w`, the Python function falls off its loop and returns `None`
rather than a string. -/
theorem C4_pad_amended (s : String) (w : Nat) (c : Char) :
    (1 ≤ s.length → s.length ≤ w →
      get_padded_string s w c = some (String.mk (List.replicate (w - s.length) c) ++ s) ∧
      (String.mk (List.replicate (w - s.length) c) ++ s).length = w) ∧
    (w < s.length → get_padded_string s w c = none) ∧
    (s.length = 0 → 1 ≤ w → get_padded_string s w c = none) := by
  refine ⟨fun h1 hw => ⟨?_, ?_⟩, fun hgt => ?_, fun h0 hw => ?_⟩
  · unfold get_padded_string
    by_cases heq : s.length = w
    · rw [if_pos heq, heq, Nat.sub_self]
      obtain ⟨l⟩ := s
      rfl
    · rw [if_neg heq]
      refine findSome?_eq_some_of_unique _ _ (w - s.length) _ (fun i hi => ?_) ?_ ?_
      · rw [if_neg]
        intro hcontra
        exact hi (by omega)
      · rw [if_pos (by omega)]
      · rw [List.mem_range'_1]
        omega
  · rw [String.length_append]
    have : (String.mk (List.replicate (w - s.length) c)).length = w - s.length := by
      show (List.replicate (w - s.length) c).length = w - s.length
      exact List.length_replicate ..
    omega
  · unfold get_padded_string
    rw [if_neg (by omega)]
    rw [List.findSome?_eq_none_iff]
    intro i hi
    rw [List.mem_range'_1] at hi
    rw [if_neg (by omega)]
  · unfold get_padded_string
    rw [if_neg (by omega)]
    rw [List.findSome?_eq_none_iff]
    intro i hi
    rw [List.mem_range'_1] at hi
    rw [if_neg (by omega)]

/-- Witness for the amended C4 at a concrete input: `"b"` padded to width 3. -/
theorem C4_pad_amended_witness :
    get_padded_string "b" 3 'A' = some (String.mk (List.replicate 2 'A') ++ "b") :=
  ((C4_pad_amended "b" 3 'A').1 (by decide) (by decide)).1

/-- Every attribute name ever assigned on a `Whitewater` instance: `__init__`
assigns `debug`, `paths`, `options`, `tracker`, `video`, `frame_maps` and
`consecutive`; no other method of the class assigns a new instance attribute
(the temporary directory path is stored under the `'temp'` key of the `paths`
dict, not as an attribute). -/
def whitewaterInstanceAttributes : List String :=
  ["debug", "paths", "options", "tracker", "video", "frame_maps", "consecutive"]

/-- The cleanup guard of `Whitewater.exit`: `shutil.rmtree(self.paths['temp'])`
runs iff `hasattr(self, 'temp_dir')` holds and `self.paths['temp']` is truthy
(a non-empty string).  `attrs` is the set of instance attribute names,
`pathsTemp` the value of `paths['temp']` (`none` = key absent; the key lookup
is short-circuited away whenever the `hasattr` test fails).  Returns whether
the temporary directory is removed. -/
def exitRemovesTemp (attrs : List String) (pathsTemp : Option String) : Bool :=
  if attrs.contains "temp_dir" then
    match pathsTemp with
    | none => false
    | some p => !(p == "")
  else false

/-- C8: the claim (and spec section 5/7) says that after the temporary work
area exists, `exit` deletes it before terminating.  The code never does: the
guard tests `hasattr(self, 'temp_dir')`, but no attribute named `temp_dir` is
ever assigned anywhere in the class, so `rmtree` is unreachable and the
temporary directory is left behind on every error exit. -/
theorem C8_exit_never_removes_temp (pathsTemp : Option String) :
    exitRemovesTemp whitewaterInstanceAttributes pathsTemp = false := by
  have hc : whitewaterInstanceAttributes.contains "temp_dir" = false := by decide
  unfold exitRemovesTemp
  rw [hc]
  simp

/-- Python values that occur as encoder option values. -/
inductive PyVal where
  | vInt : Int → PyVal
  | vFloat : Rat → PyVal
  | vStr : String → PyVal
  | vBool : Bool → PyVal
deriving DecidableEq

/-- An insertion-ordered Python dict with string keys. -/
abbrev PyDict := List (String × PyVal)

def dictGet (d : PyDict) (k : String) : Option PyVal :=
  (d.find? (fun kv => kv.1 == k)).map (fun kv => kv.2)

def dictSet (d : PyDict) (k : String) (v : PyVal) : PyDict :=
  d.map (fun kv => if kv.1 == k then (kv.1, v) else kv)

def isPyBool : PyVal → Bool
  | .vBool _ => true
  | _ => false

/-- Python `float(value)` for option coercion; `none` is the `ValueError` path.
String parsing is not modelled (no claim exercises it). -/
def pyFloat : PyVal → Option Rat
  | .vInt n => some (n : Rat)
  | .vFloat q => some q
  | .vBool b => some (if b then 1 else 0)
  | .vStr _ => none

/-- Python `int(value)` for option coercion (`int` of a float truncates toward
zero); `none` is the `ValueError` path.  String parsing is not modelled. -/
def pyInt : PyVal → Option Int
  | .vInt n => some n
  | .vFloat q => some (q.num.tdiv (q.den : Int))
  | .vBool b => some (if b then 1 else 0)
  | .vStr _ => none

/-- Python `str(value)` for the `format` option. -/
def pyStr : PyVal → String
  | .vStr s => s
  | .vInt n => toString n
  | .vFloat q => toString q
  | .vBool b => if b then "True" else "False"

/-- One iteration of the `kwargs` loop in `Whitewater._get_options`: look up the
current `options[key]` (an unknown key raises `KeyError`, modelled `none`), skip
the assignment when the current value is a `bool`, otherwise coerce with
`float`/`str`/`int` according to the key (a `ValueError` is caught and routed to
`self.exit`, also modelled `none`). -/
def applyKwarg (options : PyDict) (kv : String × PyVal) : Option PyDict :=
  match dictGet options kv.1 with
  | none => none
  | some cur =>
    if kv.1 = "threshold" then
      if isPyBool cur then some options
      else (pyFloat kv.2).map (fun q => dictSet options kv.1 (.vFloat q))
    else if kv.1 = "format" then
      if isPyBool cur then some options
      else some (dictSet options kv.1 (.vStr (pyStr kv.2)))
    else
      if isPyBool cur then some options
      else (pyInt kv.2).map (fun n => dictSet options kv.1 (.vInt n))

/-- `Whitewater._get_options`.  The body begins with `options =
Whitewater._OPTION_DEFAULTS`, which binds the class-level dict itself (no
copy), so every assignment `options[key] = ...` mutates the class attribute:
the returned dict and the new class-level state are the same object. -/
def get_options (classDefaults : PyDict) (kwargs : PyDict) : Option PyDict :=
  kwargs.foldlM applyKwarg classDefaults

/-- `Whitewater._OPTION_DEFAULTS` as written in the source. -/
def OPTION_DEFAULTS : PyDict :=
  [("blocksize", .vInt 8), ("grid", .vInt 256), ("quality", .vInt 75),
   ("threshold", .vFloat 1), ("format", .vStr "JPEG"), ("debug", .vBool false)]

/-- A sequence of `Whitewater(...)` constructions sharing the class attribute
`_OPTION_DEFAULTS`: each runs `_get_options` against the current class-level
dict and, through the aliasing noted at `get_options`, the dict it returns is
also the class-level state seen by the next construction.  Returns the options
dict each construction ended up with. -/
def constructionOptions (kwargsList : List PyDict) : Option (List PyDict) :=
  (kwargsList.foldlM
    (fun st kwargs => (get_options st.1 kwargs).map (fun d => (d, st.2 ++ [d])))
    ((OPTION_DEFAULTS, []) : PyDict × List PyDict)).map (fun st => st.2)

/-- C9: constructing with `blocksize=16` and then constructing with no options
leaves the second encoder with `blocksize = 16`, not the documented default 8:
`_get_options` aliases and mutates the class-level `_OPTION_DEFAULTS` dict, so
option values leak across constructions.  The code contradicts its own
documented defaults (docstring and `_OPTION_DEFAULTS` literal). -/
theorem C9_class_defaults_mutated :
    constructionOptions [[("blocksize", .vInt 16)], []] =
      some [dictSet OPTION_DEFAULTS "blocksize" (.vInt 16),
            dictSet OPTION_DEFAULTS "blocksize" (.vInt 16)] ∧
    dictGet (dictSet OPTION_DEFAULTS "blocksize" (.vInt 16)) "blocksize" = some (.vInt 16) ∧
    dictGet OPTION_DEFAULTS "blocksize" = some (.vInt 8) := by
  refine ⟨?_, by decide, by decide⟩
  decide

/-- An RGB pixel. -/
abbrev Pixel := Nat × Nat × Nat

/-- A PIL image as a pixel function `(x, y) ↦ pixel`. -/
abbrev PImage := Nat → Nat → Pixel

/-- One paste performed by `Whitewater._add_to_diffmap`: the index into
`FrameTracker.__images` of the image pasted into (always the last-allocated
one) and the cell cursor `(x, y)` used; the pixel box is
`(x*blocksize, y*blocksize, x*blocksize+blocksize, y*blocksize+blocksize)`,
a function of these. -/
structure Placement where
  image : Nat
  x : Nat
  y : Nat
deriving DecidableEq

/-- `FrameTracker` state: constructor arguments `block_size`/`max_size`, the
cursor `__target`, the two frame slots, and `__images` abstracted to its length
(`numImages`) together with the log of diffmap pastes (`placements`); the pixel
contents of the stored images are not needed by any claim. -/
structure FrameTracker where
  block_size : Nat
  max_size : Nat
  x : Nat
  y : Nat
  previous_frame : Option PImage
  current_frame : Option PImage
  numImages : Nat
  placements : List Placement

/-- `FrameTracker.__init__`. -/
def FrameTracker.init (block_size max_size : Nat) : FrameTracker :=
  ⟨block_size, max_size, 0, 0, none, none, 0, []⟩

/-- `FrameTracker.reset`. -/
def FrameTracker.reset (t : FrameTracker) : FrameTracker := { t with x := 0, y := 0 }

/-- `FrameTracker._create_diffmap`: reset the cursor and append a fresh blank
diffmap to `__images`. -/
def FrameTracker.create_diffmap (t : FrameTracker) : FrameTracker :=
  { t.reset with numImages := t.numImages + 1 }

/-- `FrameTracker.next_cell`: advance the cursor one cell; wrap the column at
`max_size`, wrap the row at `max_size` and allocate a new diffmap on full
wrap-around. -/
def FrameTracker.next_cell (t : FrameTracker) : FrameTracker :=
  if t.x + 1 ≥ t.max_size then
    if t.y + 1 ≥ t.max_size then FrameTracker.create_diffmap { t with x := 0, y := t.y + 1 }
    else { t with x := 0, y := t.y + 1 }
  else { t with x := t.x + 1 }

/-- `FrameTracker.set_first_image`: append the first frame itself to `__images`
and then allocate the first blank diffmap. -/
def FrameTracker.set_first_image (t : FrameTracker) (_image : PImage) : FrameTracker :=
  FrameTracker.create_diffmap { t with numImages := t.numImages + 1 }

/-- `FrameTracker.set_next_frame`. -/
def FrameTracker.set_next_frame (t : FrameTracker) (frame : PImage) : FrameTracker :=
  { t with previous_frame := t.current_frame, current_frame := some frame }

/-- `FrameTracker.diffmap_count`: `len(self.__images) - 1` (Python int
subtraction, so `Int`-valued). -/
def FrameTracker.diffmap_count (t : FrameTracker) : Int := (t.numImages : Int) - 1

/-- `Whitewater._add_to_diffmap`: paste the block into the current (last)
diffmap at the cursor cell, then advance the cursor.  The pasted pixels are
not retained in the model, only the paste location. -/
def FrameTracker.add_to_diffmap (t : FrameTracker) : FrameTracker :=
  FrameTracker.next_cell { t with placements := t.placements ++ [⟨t.numImages - 1, t.x, t.y⟩] }

/-- `Whitewater._save_images`: the file base-names generated, one per entry of
`tracker.diffmaps`, in list order: index 0 is named `first`, index `i ≥ 1` is
named `diff_` plus the zero-padded decimal index (`none` models the `TypeError`
crash when `_get_padded_string` returns `None`, i.e. for `i ≥ 1000`). -/
def save_image_names (t : FrameTracker) : List (Option String) :=
  (List.range t.numImages).map fun i =>
    if i = 0 then some "first"
    else (get_padded_string (toString i) 3 '0').map (fun suffix => "diff_" ++ suffix)
theorem succ_mod_div_of_lt (g n : Nat) (h : n % g + 1 < g) :
    (n + 1) % g = n % g + 1 ∧ (n + 1) / g = n / g := by
  have hg : 0 < g := by omega
  have hdm := Nat.div_add_mod n g
  have key : (n + 1) / g = n / g ∧ (n + 1) % g = n % g + 1 :=
    (Nat.div_mod_unique hg).mpr ⟨by omega, by omega⟩
  exact ⟨key.2, key.1⟩

theorem succ_mod_div_of_eq (g n : Nat) (hg : 0 < g) (h : n % g + 1 = g) :
    (n + 1) % g = 0 ∧ (n + 1) / g = n / g + 1 := by
  have hdm := Nat.div_add_mod n g
  have hxp : g * (n / g + 1) = g * (n / g) + g := by ring
  have key : (n + 1) / g = n / g + 1 ∧ (n + 1) % g = 0 :=
    (Nat.div_mod_unique hg).mpr ⟨by omega, by omega⟩
  exact ⟨key.2, key.1⟩

theorem add_to_diffmap_fields (t : FrameTracker) :
    t.add_to_diffmap.block_size = t.block_size ∧
    t.add_to_diffmap.max_size = t.max_size ∧
    t.add_to_diffmap.placements = t.placements ++ [⟨t.numImages - 1, t.x, t.y⟩] ∧
    t.add_to_diffmap.x = (if t.x + 1 ≥ t.max_size then 0 else t.x + 1) ∧
    t.add_to_diffmap.y =
      (if t.x + 1 ≥ t.max_size then (if t.y + 1 ≥ t.max_size then 0 else t.y + 1) else t.y) ∧
    t.add_to_diffmap.numImages =
      (if t.x + 1 ≥ t.max_size ∧ t.y + 1 ≥ t.max_size then t.numImages + 1 else t.numImages) := by
  unfold FrameTracker.add_to_diffmap FrameTracker.next_cell FrameTracker.create_diffmap
    FrameTracker.reset
  by_cases h1 : t.x + 1 ≥ t.max_size <;> by_cases h2 : t.y + 1 ≥ t.max_size <;>
    simp [h1, h2]

/-- Closed form for the tracker after the baseline capture and `n` placements:
cursor at `(n % g, n / g % g)`, `2 + n / g²` images allocated (the baseline
frame plus `1 + n / g²` diffmaps), and the placement log is exactly the dense
row-major packing sequence. -/
theorem tracker_place_invariant (b g : Nat) (img : PImage) (hg : 1 ≤ g) (n : Nat) :
    (FrameTracker.add_to_diffmap^[n] ((FrameTracker.init b g).set_first_image img)).block_size = b ∧
    (FrameTracker.add_to_diffmap^[n] ((FrameTracker.init b g).set_first_image img)).max_size = g ∧
    (FrameTracker.add_to_diffmap^[n] ((FrameTracker.init b g).set_first_image img)).x = n % g ∧
    (FrameTracker.add_to_diffmap^[n] ((FrameTracker.init b g).set_first_image img)).y = n / g % g ∧
    (FrameTracker.add_to_diffmap^[n] ((FrameTracker.init b g).set_first_image img)).numImages
      = 2 + n / (g * g) ∧
    (FrameTracker.add_to_diffmap^[n] ((FrameTracker.init b g).set_first_image img)).placements
      = (List.range n).map (fun m => ⟨1 + m / (g * g), m % g, m / g % g⟩) := by
  induction n with
  | zero =>
    simp [FrameTracker.init, FrameTracker.set_first_image, FrameTracker.create_diffmap,
      FrameTracker.reset, Nat.zero_div, Nat.zero_mod]
  | succ n ih =>
    obtain ⟨hb, hm, hx, hy, hni, hpl⟩ := ih
    rw [Function.iterate_succ_apply']
    set t := FrameTracker.add_to_diffmap^[n] ((FrameTracker.init b g).set_first_image img) with ht
    obtain ⟨fb, fm, fpl, fx, fy, fni⟩ := add_to_diffmap_fields t
    have hmltx : n % g < g := Nat.mod_lt n (by omega)
    have hmlty : n / g % g < g := Nat.mod_lt (n / g) (by omega)
    have hplacements : t.add_to_diffmap.placements
        = (List.range (n + 1)).map (fun m => ⟨1 + m / (g * g), m % g, m / g % g⟩) := by
      rw [fpl, hpl, hni, hx, hy, List.range_succ, List.map_append, List.map_cons, List.map_nil]
      have h21 : 2 + n / (g * g) - 1 = 1 + n / (g * g) := by
        generalize n / (g * g) = q
        omega
      rw [h21]
    by_cases hcx : n % g + 1 ≥ g
    · have hxeq : n % g + 1 = g := by omega
      have e1 := succ_mod_div_of_eq g n (by omega) hxeq
      by_cases hcy : n / g % g + 1 ≥ g
      · have hyeq : n / g % g + 1 = g := by omega
        have e2 := succ_mod_div_of_eq g (n / g) (by omega) hyeq
        have hdiv2 : (n + 1) / (g * g) = n / (g * g) + 1 := by
          rw [← Nat.div_div_eq_div_mul, ← Nat.div_div_eq_div_mul, e1.2]
          exact e2.2
        refine ⟨by rw [fb, hb], by rw [fm, hm], ?_, ?_, ?_, hplacements⟩
        · rw [fx, hx, hm]
          rw [if_pos (show n % g + 1 ≥ g by omega), e1.1]
        · rw [fy, hx, hy, hm]
          rw [if_pos (show n % g + 1 ≥ g by omega), if_pos (show n / g % g + 1 ≥ g by omega),
            e1.2, e2.1]
        · rw [fni, hx, hy, hm, hni]
          rw [if_pos (show n % g + 1 ≥ g ∧ n / g % g + 1 ≥ g from ⟨by omega, by omega⟩), hdiv2]
          omega
      · have e2 := succ_mod_div_of_lt g (n / g) (by omega)
        have hdiv2 : (n + 1) / (g * g) = n / (g * g) := by
          rw [← Nat.div_div_eq_div_mul, ← Nat.div_div_eq_div_mul, e1.2]
          exact e2.2
        refine ⟨by rw [fb, hb], by rw [fm, hm], ?_, ?_, ?_, hplacements⟩
        · rw [fx, hx, hm]
          rw [if_pos (show n % g + 1 ≥ g by omega), e1.1]
        · rw [fy, hx, hy, hm]
          rw [if_pos (show n % g + 1 ≥ g by omega), if_neg (show ¬ n / g % g + 1 ≥ g by omega),
            e1.2, e2.1]
        · rw [fni, hx, hy, hm, hni]
          rw [if_neg (show ¬ (n % g + 1 ≥ g ∧ n / g % g + 1 ≥ g) by omega), hdiv2]
    · have e1 := succ_mod_div_of_lt g n (by omega)
      have hdiv2 : (n + 1) / (g * g) = n / (g * g) := by
        rw [← Nat.div_div_eq_div_mul, ← Nat.div_div_eq_div_mul, e1.2]
      refine ⟨by rw [fb, hb], by rw [fm, hm], ?_, ?_, ?_, hplacements⟩
      · rw [fx, hx, hm]
        rw [if_neg (show ¬ n % g + 1 ≥ g by omega), e1.1]
      · rw [fy, hx, hy, hm]
        rw [if_neg (show ¬ n % g + 1 ≥ g by omega), e1.2]
      · rw [fni, hx, hy, hm, hni]
        rw [if_neg (show ¬ (n % g + 1 ≥ g ∧ n / g % g + 1 ≥ g) by omega), hdiv2]

/-- C6: after the baseline capture, the `k`-th block placed (1-indexed across
the whole encode run) lands at diffmap cell index `(k-1) mod grid_size²` (in
row-major cell order `y·grid + x`) of the image at list index
`(k-1) div grid_size² + 1` (the baseline at index 0 shifts diffmaps by one). -/
theorem C6_dense_packing (b g : Nat) (img : PImage) (n k : Nat)
    (hg : 1 ≤ g) (hk : 1 ≤ k) (hkn : k ≤ n) :
    ∃ pl : Placement,
      (FrameTracker.add_to_diffmap^[n] ((FrameTracker.init b g).set_first_image img)).placements[k-1]?
        = some pl ∧
      pl.image = (k - 1) / g ^ 2 + 1 ∧
      pl.y * g + pl.x = (k - 1) % g ^ 2 := by
  obtain ⟨-, -, -, -, -, hpl⟩ := tracker_place_invariant b g img hg n
  refine ⟨⟨1 + (k - 1) / (g * g), (k - 1) % g, (k - 1) / g % g⟩, ?_, ?_, ?_⟩
  · rw [hpl, List.getElem?_map, List.getElem?_range (by omega)]
    rfl
  · show 1 + (k - 1) / (g * g) = (k - 1) / g ^ 2 + 1
    rw [pow_two]
    omega
  · show (k - 1) / g % g * g + (k - 1) % g = (k - 1) % g ^ 2
    rw [pow_two]
    have hmm : (k - 1) % (g * g) = (k - 1) % g + g * ((k - 1) / g % g) := Nat.mod_mul
    have hcomm : (k - 1) / g % g * g = g * ((k - 1) / g % g) := Nat.mul_comm ..
    have h2 : (k - 1) % g < g := Nat.mod_lt (k - 1) (by omega)
    omega

/-- Witness for C6: with `grid = 2` and 5 placements, the 5th placed block
lands at cell 0 (row-major) of the image at list index 2. -/
theorem C6_dense_packing_witness :
    ∃ pl : Placement,
      (FrameTracker.add_to_diffmap^[5] ((FrameTracker.init 8 2).set_first_image (fun _ _ => (0, 0, 0)))).placements[4]?
        = some pl ∧
      pl.image = 2 ∧ pl.y * 2 + pl.x = 0 := by
  obtain ⟨pl, h1, h2, h3⟩ :=
    C6_dense_packing 8 2 (fun _ _ => (0, 0, 0)) 5 5 (by norm_num) (by norm_num) (by norm_num)
  refine ⟨pl, h1, by rw [h2]; decide, by rw [h3]; decide⟩

/-- C10: when the total number of blocks placed over an encode run is a positive
multiple of `grid_size²`, the final placement's cursor wrap eagerly allocates a
fresh blank diffmap (`numImages` grows by one on that very placement), nothing
is ever painted into it (no placement targets the last image index), and it is
nevertheless counted by `diffmap_count` — the manifest's `imagesRequired` — and
receives a `_save_images` entry like every stored image. -/
theorem C10_trailing_blank_diffmap (b g n : Nat) (img : PImage)
    (hg : 1 ≤ g) (hn : 0 < n) (hdvd : g ^ 2 ∣ n) :
    (FrameTracker.add_to_diffmap^[n] ((FrameTracker.init b g).set_first_image img)).numImages
        = 2 + n / g ^ 2 ∧
    (FrameTracker.add_to_diffmap^[n - 1] ((FrameTracker.init b g).set_first_image img)).numImages + 1
        = (FrameTracker.add_to_diffmap^[n] ((FrameTracker.init b g).set_first_image img)).numImages ∧
    (∀ pl ∈ (FrameTracker.add_to_diffmap^[n] ((FrameTracker.init b g).set_first_image img)).placements,
        pl.image < (FrameTracker.add_to_diffmap^[n] ((FrameTracker.init b g).set_first_image img)).numImages - 1) ∧
    (FrameTracker.add_to_diffmap^[n] ((FrameTracker.init b g).set_first_image img)).diffmap_count
        = ((n / g ^ 2 : Nat) : Int) + 1 ∧
    (save_image_names (FrameTracker.add_to_diffmap^[n] ((FrameTracker.init b g).set_first_image img))).length
        = (FrameTracker.add_to_diffmap^[n] ((FrameTracker.init b g).set_first_image img)).numImages := by
  obtain ⟨q, hq⟩ := hdvd
  have hG : 0 < g ^ 2 := pow_pos (by omega) 2
  have hq1 : 1 ≤ q := by
    rcases Nat.eq_zero_or_pos q with h | h
    · subst h; omega
    · exact h
  obtain ⟨q', rfl⟩ : ∃ q', q = q' + 1 := ⟨q - 1, by omega⟩
  have hgg : g * g = g ^ 2 := (pow_two g).symm
  obtain ⟨-, -, -, -, hni, hpl⟩ := tracker_place_invariant b g img hg n
  obtain ⟨-, -, -, -, hni1, -⟩ := tracker_place_invariant b g img hg (n - 1)
  have hexp : g ^ 2 * (q' + 1) = g ^ 2 * q' + g ^ 2 := by ring
  have hdivn : n / (g * g) = q' + 1 := by
    rw [hgg, hq, Nat.mul_div_cancel_left (q' + 1) hG]
  have hsub : n - 1 = (g ^ 2 - 1) + g ^ 2 * q' := by omega
  have hdivn1 : (n - 1) / (g * g) = q' := by
    rw [hgg, hsub, Nat.add_mul_div_left _ _ hG, Nat.div_eq_of_lt (by omega)]
    omega
  refine ⟨?_, ?_, ?_, ?_, ?_⟩
  · rw [hni, hgg]
  · rw [hni1, hni, hdivn1, hdivn]
    omega
  · intro pl hmem
    rw [hpl] at hmem
    obtain ⟨m, hm, rfl⟩ := List.mem_map.mp hmem
    rw [List.mem_range] at hm
    have hle : m / (g * g) ≤ (n - 1) / (g * g) := Nat.div_le_div_right (by omega)
    rw [hdivn1] at hle
    rw [hni, hdivn]
    show 1 + m / (g * g) < 2 + (q' + 1) - 1
    omega
  · rw [FrameTracker.diffmap_count, hni, hdivn, ← hgg, hdivn]
    push_cast
    omega
  · rw [save_image_names, List.length_map, List.length_range]

/-- Witness for C10: grid 2, 4 placements (one full diffmap): three images are
stored (baseline frame, the filled diffmap, the fresh blank diffmap) and the
manifest would report `imagesRequired = 2`. -/
theorem C10_trailing_blank_diffmap_witness :
    (FrameTracker.add_to_diffmap^[4] ((FrameTracker.init 8 2).set_first_image (fun _ _ => (1, 1, 1)))).numImages = 3 ∧
    (FrameTracker.add_to_diffmap^[4] ((FrameTracker.init 8 2).set_first_image (fun _ _ => (1, 1, 1)))).diffmap_count = 2 := by
  have h := C10_trailing_blank_diffmap 8 2 4 (fun _ _ => (1, 1, 1))
    (by norm_num) (by norm_num) (by norm_num)
  refine ⟨?_, ?_⟩
  · rw [h.1]
    decide
  · rw [h.2.2.2.1]
    decide

/-- A run token before serialization: the `(position, consecutive)` pair passed
to `_add_to_framemap` at a flush (the start position as a Python int, hence
`Int`; the run length as the non-negative counter `consecutive`). -/
abbrev Token := Int × Nat

/-- A token `(start, consecutive)` covers the block positions
`start .. start + consecutive - 1`. -/
abbrev covers (tk : Token) (p : Int) : Prop := tk.1 ≤ p ∧ p < tk.1 + (tk.2 : Int)

/-- The mutable state threaded through the scan loop of
`Whitewater._compare_to_previous_frame`: the tracker, `self.consecutive`, and
the tokens flushed so far into the frame map (in flush order). -/
structure ScanState where
  tracker : FrameTracker
  consecutive : Nat
  tokens : List Token

/-- One iteration of the inner `for column` loop of
`Whitewater._compare_to_previous_frame`, with the `_compare_images` verdict for
each `(row, column)` supplied as `differs`; the loop's `position` variable
equals `row * cols + col`.  On a differing block: increment `consecutive`,
place the block (`_add_to_diffmap`), and if the diffmap cursor is back at
column 0 flush a token starting at `position - consecutive + 1` and reset
`consecutive`.  On a non-differing block with an open run: flush a token
starting at `position - consecutive` and reset. -/
def scanStep (differs : Nat → Nat → Bool) (cols row col : Nat) (s : ScanState) : ScanState :=
  if differs row col then
    let c := s.consecutive + 1
    let tr := s.tracker.add_to_diffmap
    if tr.x = 0 then
      ⟨tr, 0, s.tokens ++ [(((row * cols + col : Nat) : Int) - (c : Int) + 1, c)]⟩
    else ⟨tr, c, s.tokens⟩
  else if 0 < s.consecutive then
    ⟨s.tracker, 0, s.tokens ++ [(((row * cols + col : Nat) : Int) - (s.consecutive : Int), s.consecutive)]⟩
  else s

/-- The inner `for column` loop run over columns `0 .. j-1`. -/
def colFold (differs : Nat → Nat → Bool) (cols row : Nat) (s0 : ScanState) (j : Nat) : ScanState :=
  (List.range j).foldl (fun acc col => scanStep differs cols row col acc) s0

/-- One iteration of the outer `for row` loop: reset `self.consecutive`, scan
all columns, then flush any run still open at the end of the source row with
start `position - consecutive` (at that point `position = row * cols + cols`). -/
def scanRow (differs : Nat → Nat → Bool) (cols row : Nat) (s : ScanState) : ScanState :=
  let s1 := colFold differs cols row ⟨s.tracker, 0, s.tokens⟩ cols
  if 0 < s1.consecutive then
    ⟨s1.tracker, 0,
      s1.tokens ++ [(((row * cols + cols : Nat) : Int) - (s1.consecutive : Int), s1.consecutive)]⟩
  else s1

/-- The block scan of `Whitewater._compare_to_previous_frame` over a
`rows × cols` grid from tracker state `tr` and incoming `self.consecutive`
`c0`; the token list of the result is the frame map before serialization. -/
def scanFrame (differs : Nat → Nat → Bool) (rows cols : Nat) (tr : FrameTracker) (c0 : Nat) :
    ScanState :=
  (List.range rows).foldl (fun acc row => scanRow differs cols row acc) ⟨tr, c0, []⟩

/-- Ordered disjoint token runs: each token has positive length and starts no
earlier than `lo` and no earlier than the end of the previous token. -/
def TokenChain : Int → List Token → Prop
  | _, [] => True
  | lo, tk :: rest => lo ≤ tk.1 ∧ 0 < tk.2 ∧ TokenChain (tk.1 + tk.2) rest

/-- The end of the last token of `l` (exclusive), or `lo` when `l` is empty. -/
def chainEnd (lo : Int) (l : List Token) : Int :=
  l.foldl (fun _ tk => tk.1 + tk.2) lo

theorem chainEnd_nil (lo : Int) : chainEnd lo [] = lo := rfl

theorem chainEnd_cons (lo : Int) (tk : Token) (l : List Token) :
    chainEnd lo (tk :: l) = chainEnd (tk.1 + tk.2) l := rfl

theorem chainEnd_append (lo : Int) (l1 l2 : List Token) :
    chainEnd lo (l1 ++ l2) = chainEnd (chainEnd lo l1) l2 := by
  unfold chainEnd
  exact List.foldl_append ..

theorem chainEnd_snoc (lo : Int) (l : List Token) (s : Int) (c : Nat) :
    chainEnd lo (l ++ [(s, c)]) = s + c := by
  rw [chainEnd_append]
  rfl

theorem chainEnd_of_ne_nil (x y : Int) (l : List Token) (h : l ≠ []) :
    chainEnd x l = chainEnd y l := by
  cases l with
  | nil => exact absurd rfl h
  | cons tk l => rfl

theorem tokenChain_le_chainEnd (lo : Int) (l : List Token) (h : TokenChain lo l) :
    lo ≤ chainEnd lo l := by
  induction l generalizing lo with
  | nil => exact le_of_eq rfl
  | cons tk l ih =>
    obtain ⟨h1, h2, h3⟩ := h
    rw [chainEnd_cons]
    have := ih (tk.1 + tk.2) h3
    omega

theorem tokenChain_mem (lo : Int) (l : List Token) (tk : Token) (h : TokenChain lo l)
    (hmem : tk ∈ l) : lo ≤ tk.1 ∧ 0 < tk.2 ∧ tk.1 + (tk.2 : Int) ≤ chainEnd lo l := by
  induction l generalizing lo with
  | nil => cases hmem
  | cons a l ih =>
    obtain ⟨h1, h2, h3⟩ := h
    rw [chainEnd_cons]
    rcases List.mem_cons.mp hmem with rfl | hmem2
    · exact ⟨h1, h2, tokenChain_le_chainEnd _ _ h3⟩
    · have := ih (a.1 + a.2) h3 hmem2
      omega

theorem tokenChain_weaken (lo lo2 : Int) (l : List Token) (h : TokenChain lo l) (hle : lo2 ≤ lo) :
    TokenChain lo2 l := by
  cases l with
  | nil => trivial
  | cons a l => exact ⟨le_trans hle h.1, h.2.1, h.2.2⟩

theorem tokenChain_snoc (lo : Int) (l : List Token) (s : Int) (c : Nat) :
    TokenChain lo l → chainEnd lo l ≤ s → 0 < c → TokenChain lo (l ++ [(s, c)]) := by
  induction l generalizing lo with
  | nil =>
    intro _ hle hc
    exact ⟨hle, hc, trivial⟩
  | cons a l ih =>
    intro h hle hc
    obtain ⟨h1, h2, h3⟩ := h
    exact ⟨h1, h2, ih (a.1 + a.2) h3 (by rwa [chainEnd_cons] at hle) hc⟩

theorem tokenChain_append (lo m : Int) (l1 l2 : List Token) :
    TokenChain lo l1 → chainEnd lo l1 ≤ m → TokenChain m l2 → TokenChain lo (l1 ++ l2) := by
  induction l1 generalizing lo with
  | nil =>
    intro _ hle h2
    exact tokenChain_weaken m lo l2 h2 hle
  | cons a l ih =>
    intro h1 hle h2
    obtain ⟨ha, hb, hc⟩ := h1
    exact ⟨ha, hb, ih (a.1 + a.2) hc (by rwa [chainEnd_cons] at hle) h2⟩

theorem tokenChain_pairwise (lo : Int) (l : List Token) (h : TokenChain lo l) :
    l.Pairwise (fun a b => a.1 + (a.2 : Int) ≤ b.1) := by
  induction l generalizing lo with
  | nil => exact List.Pairwise.nil
  | cons a l ih =>
    obtain ⟨h1, h2, h3⟩ := h
    refine List.Pairwise.cons ?_ (ih (a.1 + a.2) h3)
    intro b hb
    exact (tokenChain_mem (a.1 + a.2) l b h3 hb).1

theorem add_to_diffmap_placements_length (t : FrameTracker) :
    t.add_to_diffmap.placements.length = t.placements.length + 1 := by
  obtain ⟨-, -, hpl, -, -, -⟩ := add_to_diffmap_fields t
  rw [hpl, List.length_append, List.length_singleton]

theorem scanStep_not_diff_zero (differs : Nat → Nat → Bool) (cols row col : Nat) (s : ScanState)
    (hd : differs row col = false) (hc : s.consecutive = 0) :
    scanStep differs cols row col s = s := by
  unfold scanStep
  rw [hd]
  simp [hc]

theorem scanStep_not_diff_pos (differs : Nat → Nat → Bool) (cols row col : Nat) (s : ScanState)
    (hd : differs row col = false) (hc : 0 < s.consecutive) :
    scanStep differs cols row col s =
      ⟨s.tracker, 0,
        s.tokens ++ [(((row * cols + col : Nat) : Int) - (s.consecutive : Int), s.consecutive)]⟩ := by
  unfold scanStep
  rw [hd]
  simp [hc]

theorem scanStep_diff_wrap (differs : Nat → Nat → Bool) (cols row col : Nat) (s : ScanState)
    (hd : differs row col = true) (hx : s.tracker.add_to_diffmap.x = 0) :
    scanStep differs cols row col s =
      ⟨s.tracker.add_to_diffmap, 0,
        s.tokens ++ [(((row * cols + col : Nat) : Int) - ((s.consecutive + 1 : Nat) : Int) + 1,
          s.consecutive + 1)]⟩ := by
  unfold scanStep
  rw [hd]
  simp [hx]

theorem scanStep_diff_nowrap (differs : Nat → Nat → Bool) (cols row col : Nat) (s : ScanState)
    (hd : differs row col = true) (hx : ¬ s.tracker.add_to_diffmap.x = 0) :
    scanStep differs cols row col s =
      ⟨s.tracker.add_to_diffmap, s.consecutive + 1, s.tokens⟩ := by
  unfold scanStep
  rw [hd]
  simp [hx]

theorem colFold_succ (differs : Nat → Nat → Bool) (cols row : Nat) (s0 : ScanState) (j : Nat) :
    colFold differs cols row s0 (j + 1)
      = scanStep differs cols row j (colFold differs cols row s0 j) := by
  unfold colFold
  rw [List.range_succ, List.foldl_append, List.foldl_cons, List.foldl_nil]

/-- Loop invariant of the inner column scan of one source row (started from a
fresh `consecutive = 0`): after columns `0 .. j-1`, the open run is exactly the
trailing `consecutive` columns, all differing; the flushed tokens extend the
incoming list by an ordered disjoint chain exactly covering the differing
columns before the open run; one block has been placed per differing column. -/
def ColInv (differs : Nat → Nat → Bool) (cols row : Nat) (tr0 : FrameTracker)
    (T0 : List Token) (j : Nat) (s : ScanState) : Prop :=
  ∃ N : List Token,
    s.tokens = T0 ++ N ∧
    s.consecutive ≤ j ∧
    (∀ k : Nat, j - s.consecutive ≤ k → k < j → differs row k = true) ∧
    TokenChain ((row * cols : Nat) : Int) N ∧
    chainEnd ((row * cols : Nat) : Int) N ≤ ((row * cols + (j - s.consecutive) : Nat) : Int) ∧
    (∀ p : Int, (∃ tk ∈ N, covers tk p) ↔
      ∃ k : Nat, k < j - s.consecutive ∧ p = ((row * cols + k : Nat) : Int) ∧ differs row k = true) ∧
    s.tracker.placements.length
      = tr0.placements.length + (List.range j).countP (fun k => differs row k)

theorem colFold_inv (differs : Nat → Nat → Bool) (cols row : Nat) (tr0 : FrameTracker)
    (T0 : List Token) (j : Nat) :
    ColInv differs cols row tr0 T0 j (colFold differs cols row ⟨tr0, 0, T0⟩ j) := by
  induction j with
  | zero =>
    refine ⟨[], (List.append_nil T0).symm, le_refl 0, ?_, trivial, ?_, ?_, ?_⟩
    · intro k hk1 hk2
      omega
    · show ((row * cols : Nat) : Int) ≤ ((row * cols + (0 - 0) : Nat) : Int)
      omega
    · intro p
      constructor
      · rintro ⟨tk, htk, -⟩
        cases htk
      · rintro ⟨k, hk, -⟩
        omega
    · simp [colFold]
  | succ j ih =>
    obtain ⟨N, htok, hcle, hrun, hchain, hend, hcov, hplc⟩ := ih
    rw [colFold_succ]
    set s := colFold differs cols row ⟨tr0, 0, T0⟩ j with hs
    have hcount : (List.range (j + 1)).countP (fun k => differs row k)
        = (List.range j).countP (fun k => differs row k)
          + (if differs row j then 1 else 0) := by
      rw [List.range_succ, List.countP_append]
      simp [List.countP_cons]
    cases hdif : differs row j with
    | false =>
      rcases Nat.eq_zero_or_pos s.consecutive with hc0 | hcpos
      · rw [scanStep_not_diff_zero differs cols row j s hdif hc0]
        refine ⟨N, htok, by omega, ?_, hchain, ?_, ?_, ?_⟩
        · intro k hk1 hk2
          omega
        · have : j - s.consecutive ≤ j + 1 - s.consecutive := by omega
          omega
        · intro p
          rw [hcov]
          constructor
          · rintro ⟨k, hk, hp, hd⟩
            exact ⟨k, by omega, hp, hd⟩
          · rintro ⟨k, hk, hp, hd⟩
            refine ⟨k, ?_, hp, hd⟩
            rcases Nat.lt_or_ge k j with hkj | hkj
            · omega
            · have hkeq : k = j := by omega
              rw [hkeq] at hd
              rw [hd] at hdif
              cases hdif
        · rw [hplc, hcount, hdif]
          simp
      · rw [scanStep_not_diff_pos differs cols row j s hdif hcpos]
        unfold ColInv
        dsimp only
        have hstart : ((row * cols + j : Nat) : Int) - (s.consecutive : Int)
            = ((row * cols + (j - s.consecutive) : Nat) : Int) := by
          omega
        refine ⟨N ++ [(((row * cols + j : Nat) : Int) - (s.consecutive : Int), s.consecutive)],
          ?_, by omega, ?_, ?_, ?_, ?_, ?_⟩
        · show s.tokens ++ _ = T0 ++ (N ++ _)
          rw [htok, List.append_assoc]
        · intro k hk1 hk2
          omega
        · refine tokenChain_snoc _ _ _ _ hchain ?_ hcpos
          rw [hstart]
          exact hend
        · rw [chainEnd_snoc]
          omega
        · intro p
          constructor
          · rintro ⟨tk, htk, hcv⟩
            rcases List.mem_append.mp htk with hmem | hmem
            · obtain ⟨k, hk, hp, hd⟩ := (hcov p).mp ⟨tk, hmem, hcv⟩
              exact ⟨k, by omega, hp, hd⟩
            · rw [List.mem_singleton] at hmem
              subst hmem
              obtain ⟨hc1, hc2⟩ := hcv
              obtain ⟨k, hk1, hk2, hp⟩ :
                  ∃ k : Nat, j - s.consecutive ≤ k ∧ k < j
                    ∧ p = ((row * cols + k : Nat) : Int) := by
                refine ⟨(p - ((row * cols : Nat) : Int)).toNat, ?_, ?_, ?_⟩ <;> omega
              exact ⟨k, by omega, hp, hrun k hk1 hk2⟩
          · rintro ⟨k, hk, hp, hd⟩
            rcases Nat.lt_or_ge k (j - s.consecutive) with hks | hks
            · obtain ⟨tk, hmem, hcv⟩ := (hcov p).mpr ⟨k, hks, hp, hd⟩
              exact ⟨tk, List.mem_append_left _ hmem, hcv⟩
            · have hkj : k < j := by
                rcases Nat.lt_or_ge k j with h | h
                · exact h
                · have hkeq : k = j := by omega
                  rw [hkeq] at hd
                  rw [hd] at hdif
                  cases hdif
              refine ⟨(((row * cols + j : Nat) : Int) - (s.consecutive : Int), s.consecutive),
                List.mem_append_right _ (List.mem_singleton.mpr rfl), ?_, ?_⟩ <;> omega
        · show s.tracker.placements.length = _
          rw [hplc, hcount, hdif]
          simp
    | true =>
      have hplen := add_to_diffmap_placements_length s.tracker
      rcases Nat.eq_zero_or_pos s.tracker.add_to_diffmap.x with hx | hx
      · rw [scanStep_diff_wrap differs cols row j s hdif hx]
        unfold ColInv
        dsimp only
        have hstart : ((row * cols + j : Nat) : Int) - ((s.consecutive + 1 : Nat) : Int) + 1
            = ((row * cols + (j - s.consecutive) : Nat) : Int) := by
          omega
        refine ⟨N ++ [(((row * cols + j : Nat) : Int) - ((s.consecutive + 1 : Nat) : Int) + 1,
            s.consecutive + 1)], ?_, by omega, ?_, ?_, ?_, ?_, ?_⟩
        · show s.tokens ++ _ = T0 ++ (N ++ _)
          rw [htok, List.append_assoc]
        · intro k hk1 hk2
          omega
        · refine tokenChain_snoc _ _ _ _ hchain ?_ (by omega)
          rw [hstart]
          exact hend
        · rw [chainEnd_snoc]
          omega
        · intro p
          constructor
          · rintro ⟨tk, htk, hcv⟩
            rcases List.mem_append.mp htk with hmem | hmem
            · obtain ⟨k, hk, hp, hd⟩ := (hcov p).mp ⟨tk, hmem, hcv⟩
              exact ⟨k, by omega, hp, hd⟩
            · rw [List.mem_singleton] at hmem
              subst hmem
              obtain ⟨hc1, hc2⟩ := hcv
              obtain ⟨k, hk1, hk2, hp⟩ :
                  ∃ k : Nat, j - s.consecutive ≤ k ∧ k ≤ j
                    ∧ p = ((row * cols + k : Nat) : Int) := by
                refine ⟨(p - ((row * cols : Nat) : Int)).toNat, ?_, ?_, ?_⟩ <;> omega
              refine ⟨k, by omega, hp, ?_⟩
              rcases Nat.lt_or_ge k j with hkj | hkj
              · exact hrun k hk1 hkj
              · have hkeq : k = j := by omega
                rw [hkeq]
                exact hdif
          · rintro ⟨k, hk, hp, hd⟩
            rcases Nat.lt_or_ge k (j - s.consecutive) with hks | hks
            · obtain ⟨tk, hmem, hcv⟩ := (hcov p).mpr ⟨k, hks, hp, hd⟩
              exact ⟨tk, List.mem_append_left _ hmem, hcv⟩
            · refine ⟨(((row * cols + j : Nat) : Int) - ((s.consecutive + 1 : Nat) : Int) + 1,
                s.consecutive + 1),
                List.mem_append_right _ (List.mem_singleton.mpr rfl), ?_, ?_⟩ <;> omega
        · show s.tracker.add_to_diffmap.placements.length = _
          rw [hplen, hplc, hcount, hdif]
          simp
          omega
      · rw [scanStep_diff_nowrap differs cols row j s hdif (by omega)]
        unfold ColInv
        dsimp only
        have hb : j + 1 - (s.consecutive + 1) = j - s.consecutive := by omega
        refine ⟨N, htok, by omega, ?_, hchain, ?_, ?_, ?_⟩
        · intro k hk1 hk2
          rcases Nat.lt_or_ge k j with hkj | hkj
          · refine hrun k ?_ hkj
            omega
          · have hkeq : k = j := by omega
            rw [hkeq]
            exact hdif
        · show chainEnd _ N ≤ ((row * cols + (j + 1 - (s.consecutive + 1)) : Nat) : Int)
          rw [hb]
          exact hend
        · intro p
          show (∃ tk ∈ N, covers tk p) ↔
            ∃ k : Nat, k < j + 1 - (s.consecutive + 1)
              ∧ p = ((row * cols + k : Nat) : Int) ∧ differs row k = true
          rw [hb]
          exact hcov p
        · show s.tracker.add_to_diffmap.placements.length = _
          rw [hplen, hplc, hcount, hdif]
          simp
          omega

theorem scanRow_eq (differs : Nat → Nat → Bool) (cols row : Nat) (s : ScanState) :
    scanRow differs cols row s =
      (if 0 < (colFold differs cols row ⟨s.tracker, 0, s.tokens⟩ cols).consecutive then
        ⟨(colFold differs cols row ⟨s.tracker, 0, s.tokens⟩ cols).tracker, 0,
          (colFold differs cols row ⟨s.tracker, 0, s.tokens⟩ cols).tokens
            ++ [(((row * cols + cols : Nat) : Int)
                  - ((colFold differs cols row ⟨s.tracker, 0, s.tokens⟩ cols).consecutive : Int),
                (colFold differs cols row ⟨s.tracker, 0, s.tokens⟩ cols).consecutive)]⟩
      else colFold differs cols row ⟨s.tracker, 0, s.tokens⟩ cols) := rfl

/-- What one full `scanRow` adds, from an arbitrary incoming state: the token
list grows by an ordered disjoint chain confined to the row's position range
and exactly covering the row's differing columns; `consecutive` leaves as 0;
one block is placed per differing column. -/
theorem scanRow_spec (differs : Nat → Nat → Bool) (cols row : Nat) (tr0 : FrameTracker)
    (T0 : List Token) (c0 : Nat) :
    ∃ N : List Token,
      (scanRow differs cols row ⟨tr0, c0, T0⟩).tokens = T0 ++ N ∧
      (scanRow differs cols row ⟨tr0, c0, T0⟩).consecutive = 0 ∧
      TokenChain ((row * cols : Nat) : Int) N ∧
      chainEnd ((row * cols : Nat) : Int) N ≤ ((row * cols + cols : Nat) : Int) ∧
      (∀ p : Int, (∃ tk ∈ N, covers tk p) ↔
        ∃ k : Nat, k < cols ∧ p = ((row * cols + k : Nat) : Int) ∧ differs row k = true) ∧
      (scanRow differs cols row ⟨tr0, c0, T0⟩).tracker.placements.length
        = tr0.placements.length + (List.range cols).countP (fun k => differs row k) := by
  obtain ⟨N, htok, hcle, hrun, hchain, hend, hcov, hplc⟩ := colFold_inv differs cols row tr0 T0 cols
  rw [scanRow_eq]
  dsimp only
  rcases Nat.eq_zero_or_pos (colFold differs cols row ⟨tr0, 0, T0⟩ cols).consecutive
    with hc0 | hcpos
  · rw [if_neg (by omega)]
    refine ⟨N, htok, hc0, hchain, ?_, ?_, hplc⟩
    · rw [hc0] at hend
      omega
    · intro p
      rw [hcov]
      rw [hc0]
      constructor
      · rintro ⟨k, hk, hp, hd⟩
        exact ⟨k, by omega, hp, hd⟩
      · rintro ⟨k, hk, hp, hd⟩
        exact ⟨k, by omega, hp, hd⟩
  · rw [if_pos hcpos]
    dsimp only
    set s1 := colFold differs cols row ⟨tr0, 0, T0⟩ cols with hs1
    have hstart : ((row * cols + cols : Nat) : Int) - (s1.consecutive : Int)
        = ((row * cols + (cols - s1.consecutive) : Nat) : Int) := by
      omega
    refine ⟨N ++ [(((row * cols + cols : Nat) : Int) - (s1.consecutive : Int), s1.consecutive)],
      ?_, rfl, ?_, ?_, ?_, hplc⟩
    · rw [htok, List.append_assoc]
    · refine tokenChain_snoc _ _ _ _ hchain ?_ hcpos
      rw [hstart]
      exact hend
    · rw [chainEnd_snoc]
      omega
    · intro p
      constructor
      · rintro ⟨tk, htk, hcv⟩
        rcases List.mem_append.mp htk with hmem | hmem
        · obtain ⟨k, hk, hp, hd⟩ := (hcov p).mp ⟨tk, hmem, hcv⟩
          exact ⟨k, by omega, hp, hd⟩
        · rw [List.mem_singleton] at hmem
          subst hmem
          obtain ⟨hc1, hc2⟩ := hcv
          obtain ⟨k, hk1, hk2, hp⟩ :
              ∃ k : Nat, cols - s1.consecutive ≤ k ∧ k < cols
                ∧ p = ((row * cols + k : Nat) : Int) := by
            refine ⟨(p - ((row * cols : Nat) : Int)).toNat, ?_, ?_, ?_⟩ <;> omega
          exact ⟨k, hk2, hp, hrun k hk1 hk2⟩
      · rintro ⟨k, hk, hp, hd⟩
        rcases Nat.lt_or_ge k (cols - s1.consecutive) with hks | hks
        · obtain ⟨tk, hmem, hcv⟩ := (hcov p).mpr ⟨k, hks, hp, hd⟩
          exact ⟨tk, List.mem_append_left _ hmem, hcv⟩
        · refine ⟨(((row * cols + cols : Nat) : Int) - (s1.consecutive : Int), s1.consecutive),
            List.mem_append_right _ (List.mem_singleton.mpr rfl), ?_, ?_⟩ <;> omega

/-- The outer `for row` loop run over rows `0 .. r-1`. -/
def rowFold (differs : Nat → Nat → Bool) (cols : Nat) (tr : FrameTracker) (c0 : Nat)
    (r : Nat) : ScanState :=
  (List.range r).foldl (fun acc row => scanRow differs cols row acc) ⟨tr, c0, []⟩

theorem scanFrame_eq_rowFold (differs : Nat → Nat → Bool) (rows cols : Nat)
    (tr : FrameTracker) (c0 : Nat) :
    scanFrame differs rows cols tr c0 = rowFold differs cols tr c0 rows := rfl

theorem rowFold_succ (differs : Nat → Nat → Bool) (cols : Nat) (tr : FrameTracker) (c0 : Nat)
    (r : Nat) :
    rowFold differs cols tr c0 (r + 1) = scanRow differs cols r (rowFold differs cols tr c0 r) := by
  unfold rowFold
  rw [List.range_succ, List.foldl_append, List.foldl_cons, List.foldl_nil]

theorem rowcol_div_mod (r cols k : Nat) (hk : k < cols) :
    (r * cols + k) / cols = r ∧ (r * cols + k) % cols = k := by
  have hcols : 0 < cols := by omega
  have hcomm : cols * r = r * cols := Nat.mul_comm ..
  exact (Nat.div_mod_unique hcols).mpr ⟨by omega, hk⟩

/-- Flattened invariant of the whole frame scan after `r` rows: the token list
is an ordered disjoint chain below position `r·cols`, each token confined to a
single source row, the covered positions are exactly the differing ones, and
one block has been placed per differing position. -/
def FrameInv (differs : Nat → Nat → Bool) (cols : Nat) (tr : FrameTracker) (r : Nat)
    (s : ScanState) : Prop :=
  TokenChain 0 s.tokens ∧
  chainEnd 0 s.tokens ≤ ((r * cols : Nat) : Int) ∧
  (∀ tk ∈ s.tokens, 0 < tk.2 ∧ ∃ rr : Nat, rr < r ∧ ((rr * cols : Nat) : Int) ≤ tk.1 ∧
    tk.1 + (tk.2 : Int) ≤ ((rr * cols + cols : Nat) : Int)) ∧
  (∀ p : Int, (∃ tk ∈ s.tokens, covers tk p) ↔
    ∃ q : Nat, q < r * cols ∧ p = (q : Int) ∧ differs (q / cols) (q % cols) = true) ∧
  s.tracker.placements.length
    = tr.placements.length + (List.range (r * cols)).countP (fun q => differs (q / cols) (q % cols))

theorem rowFold_inv (differs : Nat → Nat → Bool) (cols : Nat) (tr : FrameTracker) (c0 : Nat)
    (r : Nat) : FrameInv differs cols tr r (rowFold differs cols tr c0 r) := by
  induction r with
  | zero =>
    refine ⟨trivial, by simp [rowFold, chainEnd], ?_, ?_, ?_⟩
    · intro tk htk
      cases htk
    · intro p
      constructor
      · rintro ⟨tk, htk, -⟩
        cases htk
      · rintro ⟨q, hq, -⟩
        omega
    · simp [rowFold]
  | succ r ih =>
    obtain ⟨hchainT, hendT, hrowT, hcovT, hplcT⟩ := ih
    rw [rowFold_succ]
    set sr := rowFold differs cols tr c0 r with hsr
    have hseta : sr = ⟨sr.tracker, sr.consecutive, sr.tokens⟩ := rfl
    obtain ⟨N, htok, hcons, hchainN, hendN, hcovN, hplcN⟩ :=
      scanRow_spec differs cols r sr.tracker sr.tokens sr.consecutive
    rw [← hseta] at htok hcons hplcN
    have hmul : (r + 1) * cols = r * cols + cols := by ring
    refine ⟨?_, ?_, ?_, ?_, ?_⟩
    · rw [htok]
      exact tokenChain_append 0 ((r * cols : Nat) : Int) sr.tokens N hchainT hendT hchainN
    · rw [htok, chainEnd_append]
      rcases List.eq_nil_or_concat N with hN | ⟨l, tk, rfl⟩
      · subst hN
        rw [chainEnd_nil]
        omega
      · rw [chainEnd_of_ne_nil (chainEnd 0 sr.tokens) ((r * cols : Nat) : Int) _
          (by simp)]
        omega
    · intro tk htk
      rw [htok] at htk
      rcases List.mem_append.mp htk with hmem | hmem
      · obtain ⟨h1, rr, h2, h3, h4⟩ := hrowT tk hmem
        exact ⟨h1, rr, by omega, h3, h4⟩
      · obtain ⟨h1, h2, h3⟩ := tokenChain_mem _ _ _ hchainN hmem
        exact ⟨h2, r, by omega, h1, by omega⟩
    · intro p
      rw [htok]
      constructor
      · rintro ⟨tk, htk, hcv⟩
        rcases List.mem_append.mp htk with hmem | hmem
        · obtain ⟨q, hq, hp, hd⟩ := (hcovT p).mp ⟨tk, hmem, hcv⟩
          exact ⟨q, by omega, hp, hd⟩
        · obtain ⟨k, hk, hp, hd⟩ := (hcovN p).mp ⟨tk, hmem, hcv⟩
          refine ⟨r * cols + k, by omega, hp, ?_⟩
          obtain ⟨hdiv, hmod⟩ := rowcol_div_mod r cols k hk
          rw [hdiv, hmod]
          exact hd
      · rintro ⟨q, hq, hp, hd⟩
        rcases Nat.lt_or_ge q (r * cols) with hql | hql
        · obtain ⟨tk, hmem, hcv⟩ := (hcovT p).mpr ⟨q, hql, hp, hd⟩
          exact ⟨tk, List.mem_append_left _ hmem, hcv⟩
        · obtain ⟨k, hkeq, hklt⟩ : ∃ k : Nat, q = r * cols + k ∧ k < cols :=
            ⟨q - r * cols, by omega, by omega⟩
          subst hkeq
          obtain ⟨hdiv, hmod⟩ := rowcol_div_mod r cols k hklt
          rw [hdiv, hmod] at hd
          obtain ⟨tk, hmem, hcv⟩ := (hcovN p).mpr ⟨k, hklt, hp, hd⟩
          exact ⟨tk, List.mem_append_right _ hmem, hcv⟩
    · rw [hplcN, hplcT, hmul, List.range_add, List.countP_append, List.countP_map]
      have hc : (List.range cols).countP
            ((fun q => differs (q / cols) (q % cols)) ∘ (fun x => r * cols + x))
          = (List.range cols).countP (fun k => differs r k) := by
        apply List.countP_congr
        intro k hk
        rw [List.mem_range] at hk
        obtain ⟨hdiv, hmod⟩ := rowcol_div_mod r cols k hk
        show differs ((r * cols + k) / cols) ((r * cols + k) % cols) = true ↔ differs r k = true
        rw [hdiv, hmod]
      rw [hc]
      omega

/-- C2: for every scanned frame, the union of the position ranges of the
flushed tokens (`start .. start + consecutive - 1`) is exactly the set of block
positions at which the block difference detector returned `True` for that
frame; no position is covered by two distinct tokens; and the scan performs
exactly one diffmap placement per differing block. -/
theorem C2_exhaustive_coverage (differs : Nat → Nat → Bool) (rows cols : Nat)
    (tr0 : FrameTracker) (c0 : Nat) :
    (∀ p : Int,
      (∃ tk ∈ (scanFrame differs rows cols tr0 c0).tokens, covers tk p) ↔
      (∃ q : Nat, q < rows * cols ∧ p = (q : Int) ∧ differs (q / cols) (q % cols) = true)) ∧
    (∀ i j : Nat, ∀ hi : i < (scanFrame differs rows cols tr0 c0).tokens.length,
      ∀ hj : j < (scanFrame differs rows cols tr0 c0).tokens.length, i ≠ j →
      ∀ p : Int, covers ((scanFrame differs rows cols tr0 c0).tokens.get ⟨i, hi⟩) p →
        ¬ covers ((scanFrame differs rows cols tr0 c0).tokens.get ⟨j, hj⟩) p) ∧
    (scanFrame differs rows cols tr0 c0).tracker.placements.length
      = tr0.placements.length
        + (List.range (rows * cols)).countP (fun q => differs (q / cols) (q % cols)) := by
  obtain ⟨hchain, hend, hrow, hcov, hplc⟩ := rowFold_inv differs cols tr0 c0 rows
  rw [scanFrame_eq_rowFold]
  refine ⟨hcov, ?_, hplc⟩
  have hpw := tokenChain_pairwise 0 _ hchain
  rw [List.pairwise_iff_getElem] at hpw
  intro i j hi hj hne p hcp hcq
  simp only [List.get_eq_getElem] at hcp hcq
  rcases Nat.lt_or_ge i j with hij | hij
  · have hord := hpw i j hi hj hij
    obtain ⟨ha1, ha2⟩ := hcp
    obtain ⟨hb1, hb2⟩ := hcq
    omega
  · have hji : j < i := by omega
    have hord := hpw j i hj hi hji
    obtain ⟨ha1, ha2⟩ := hcp
    obtain ⟨hb1, hb2⟩ := hcq
    omega

/-- Witness for C2 at a concrete scan (one row, 3 columns, grid 2, every block
differing): position 0 is covered by the first token only. -/
theorem C2_exhaustive_coverage_witness :
    ¬ covers ((scanFrame (fun _ _ => true) 1 3
        ((FrameTracker.init 8 2).set_first_image (fun _ _ => (2, 2, 2))) 0).tokens.get
        ⟨1, by decide⟩) 0 :=
  (C2_exhaustive_coverage (fun _ _ => true) 1 3
      ((FrameTracker.init 8 2).set_first_image (fun _ _ => (2, 2, 2))) 0).2.1
    0 1 (by decide) (by decide) (by decide) 0 (by decide)

/-- C3: in the scan loop, whenever a differing block is placed and the diffmap
cursor's x-component is 0 immediately after the placement, a token is flushed
at that point with start position `position - consecutive + 1` and length the
current (just incremented) `consecutive` count, and `consecutive` is reset to
0; consequently a run of 5 contiguous differing blocks with grid size 2
flushes at least 2 tokens. -/
theorem C3_wrap_flush (differs : Nat → Nat → Bool) (cols row col : Nat) (s : ScanState)
    (hd : differs row col = true) (hx : s.tracker.add_to_diffmap.x = 0) :
    scanStep differs cols row col s =
      ⟨s.tracker.add_to_diffmap, 0,
        s.tokens ++ [(((row * cols + col : Nat) : Int) - ((s.consecutive + 1 : Nat) : Int) + 1,
          s.consecutive + 1)]⟩ ∧
    2 ≤ (scanFrame (fun _ _ => true) 1 5
        ((FrameTracker.init 8 2).set_first_image (fun _ _ => (0, 0, 0))) 0).tokens.length :=
  ⟨scanStep_diff_wrap differs cols row col s hd hx, by decide⟩

/-- Witness for C3: concrete wrap-flush (grid 2, second differing block wraps
the cursor row) flushing the token `(0, 2)`. -/
theorem C3_wrap_flush_witness :
    scanStep (fun _ _ => true) 5 0 1
        ⟨((FrameTracker.init 8 2).set_first_image (fun _ _ => (0, 0, 0))).add_to_diffmap, 1, []⟩ =
      ⟨((FrameTracker.init 8 2).set_first_image
          (fun _ _ => (0, 0, 0))).add_to_diffmap.add_to_diffmap, 0,
        [] ++ [(((0 * 5 + 1 : Nat) : Int) - ((1 + 1 : Nat) : Int) + 1, 1 + 1)]⟩ :=
  (C3_wrap_flush (fun _ _ => true) 5 0 1
    ⟨((FrameTracker.init 8 2).set_first_image (fun _ _ => (0, 0, 0))).add_to_diffmap, 1, []⟩
    rfl (by decide)).1

/-- C7: no flushed token's position range crosses a source-frame row boundary:
every token of a frame scan has positive length and lies within one source row
(equivalently, its first and last covered positions have the same quotient by
the column count); and at the end of each source row an open run is flushed
with start position `position - consecutive` (at that point `position` equals
`row * cols + cols`), resetting `consecutive` to 0. -/
theorem C7_row_boundary (differs : Nat → Nat → Bool) (rows cols : Nat)
    (tr0 : FrameTracker) (c0 : Nat) :
    (∀ tk ∈ (scanFrame differs rows cols tr0 c0).tokens,
      0 < tk.2 ∧ ∃ r : Nat, r < rows ∧ ((r * cols : Nat) : Int) ≤ tk.1 ∧
        tk.1 + (tk.2 : Int) ≤ ((r * cols + cols : Nat) : Int)) ∧
    (0 < cols → ∀ tk ∈ (scanFrame differs rows cols tr0 c0).tokens,
      tk.1.toNat / cols = (tk.1 + (tk.2 : Int) - 1).toNat / cols) ∧
    (∀ row : Nat, ∀ s : ScanState,
      0 < (colFold differs cols row ⟨s.tracker, 0, s.tokens⟩ cols).consecutive →
      scanRow differs cols row s =
        ⟨(colFold differs cols row ⟨s.tracker, 0, s.tokens⟩ cols).tracker, 0,
          (colFold differs cols row ⟨s.tracker, 0, s.tokens⟩ cols).tokens
            ++ [(((row * cols + cols : Nat) : Int)
                  - ((colFold differs cols row ⟨s.tracker, 0, s.tokens⟩ cols).consecutive : Int),
                (colFold differs cols row ⟨s.tracker, 0, s.tokens⟩ cols).consecutive)]⟩) := by
  obtain ⟨hchain, hend, hrow, hcov, hplc⟩ := rowFold_inv differs cols tr0 c0 rows
  rw [scanFrame_eq_rowFold]
  refine ⟨hrow, ?_, ?_⟩
  · intro hcols tk htk
    obtain ⟨hlen, r, hr, h1, h2⟩ := hrow tk htk
    have hcomm : cols * r = r * cols := Nat.mul_comm ..
    have e1 : tk.1.toNat / cols = r ∧ tk.1.toNat % cols = tk.1.toNat - r * cols :=
      (Nat.div_mod_unique hcols).mpr ⟨by omega, by omega⟩
    have e2 : (tk.1 + (tk.2 : Int) - 1).toNat / cols = r
        ∧ (tk.1 + (tk.2 : Int) - 1).toNat % cols = (tk.1 + (tk.2 : Int) - 1).toNat - r * cols :=
      (Nat.div_mod_unique hcols).mpr ⟨by omega, by omega⟩
    rw [e1.1, e2.1]
  · intro row s h
    rw [scanRow_eq, if_pos h]

/-- Witness for C7: in the concrete 1-row 3-column all-differing scan, the
first token `(0, 2)` has the same row quotient at both ends. -/
theorem C7_row_boundary_witness :
    ((0 : Int), (2 : Nat)).1.toNat / 3
      = (((0 : Int), (2 : Nat)).1 + ((((0 : Int), (2 : Nat)).2 : Nat) : Int) - 1).toNat / 3 :=
  (C7_row_boundary (fun _ _ => true) 1 3
      ((FrameTracker.init 4 2).set_first_image (fun _ _ => (3, 3, 3))) 0).2.1
    (by decide) ((0 : Int), (2 : Nat)) (by decide)

/-- Channel-wise absolute difference, as in `ImageChops.difference`. -/
def absDiff (a b : Nat) : Nat := max a b - min a b

/-- Squared channel differences of one pixel pair, summed over the three
channels.  Summed over the block this equals the histogram statistic of
`_compare_images`: the difference image's histogram holds at bucket
`ch*256 + v` the count of pixels whose channel-`ch` difference is `v`, so
`sum(count * (idx % 256)**2)` is the sum over all pixels and channels of the
squared difference. -/
def pixelSq (p q : Pixel) : Nat :=
  absDiff p.1 q.1 ^ 2 + absDiff p.2.1 q.2.1 ^ 2 + absDiff p.2.2 q.2.2 ^ 2

/-- The `sum_of_squares` of `Whitewater._compare_images` over a `b × b` block
pair. -/
def sumOfSquares (b : Nat) (im1 im2 : PImage) : Nat :=
  ((List.range b).map fun y => ((List.range b).map fun x => pixelSq (im1 x y) (im2 x y)).sum).sum

/-- `diff.getbbox()` is `None` iff the two blocks agree on every pixel of the
`b × b` domain. -/
def blocksEqual (b : Nat) (im1 im2 : PImage) : Bool :=
  (List.range b).all fun y => (List.range b).all fun x => decide (im1 x y = im2 x y)

/-- `Whitewater._compare_images`: `False` when the difference bounding box is
empty; otherwise `True` iff the RMS statistic strictly exceeds the threshold.
The float comparison `math.sqrt(sum_of_squares / (b*b)) <= threshold` is
modelled exactly over `ℚ`: for `b > 0` it holds iff `0 ≤ threshold` and
`sum_of_squares ≤ threshold² · b²`. -/
def compare_images (b : Nat) (threshold : Rat) (im1 im2 : PImage) : Bool :=
  if blocksEqual b im1 im2 then false
  else !decide (0 ≤ threshold ∧
    (sumOfSquares b im1 im2 : Rat) ≤ threshold ^ 2 * ((b * b : Nat) : Rat))

/-- `Whitewater._get_box_coords`. -/
def get_box_coords (row column blocksize : Nat) : Nat × Nat × Nat × Nat :=
  (column * blocksize, row * blocksize, column * blocksize + blocksize,
    row * blocksize + blocksize)

/-- `Image.new('RGB', (b, b))` (black) with `frame.crop(box)` pasted at the
origin, `box = _get_box_coords(row, column, b)`: pixels inside the source
frame are copied, reads past the frame edge yield black (PIL's out-of-bounds
crop fill). -/
def cropBlock (b w h : Nat) (img : PImage) (row col : Nat) : PImage :=
  fun x y =>
    if (get_box_coords row col b).1 + x < w ∧ (get_box_coords row col b).2.1 + y < h then
      img ((get_box_coords row col b).1 + x) ((get_box_coords row col b).2.1 + y)
    else (0, 0, 0)

/-- The per-block verdict of `_compare_images` inside
`_compare_to_previous_frame`, as a function of grid row and column. -/
def frameDiffers (b : Nat) (thr : Rat) (w h : Nat) (prev cur : PImage) : Nat → Nat → Bool :=
  fun row col =>
    compare_images b thr (cropBlock b w h prev row col) (cropBlock b w h cur row col)

/-- `Whitewater._compare_to_previous_frame`: `columns = ceil(w / blocksize)`
and `rows = ceil(h / blocksize)` (exact ceiling division), scanned row-major
against the previous frame. -/
def compare_to_previous_frame (b : Nat) (thr : Rat) (w h : Nat) (prev cur : PImage)
    (tr : FrameTracker) (c0 : Nat) : ScanState :=
  scanFrame (frameDiffers b thr w h prev cur) ((h + b - 1) / b) ((w + b - 1) / b) tr c0

/-- The per-run mutable state of the `Whitewater` object used by `encode`. -/
structure EncodeState where
  tracker : FrameTracker
  frame_maps : List (List Token)
  consecutive : Nat

/-- `Whitewater._process_frame`: always `set_next_frame`; frame 1 is captured
as the baseline via `set_first_image`, later frames are scanned against the
previous one.  `none` models crashing on a missing previous frame (which never
happens in a run started at frame 1). -/
def process_frame (b : Nat) (thr : Rat) (w h : Nat) (st : EncodeState)
    (frame_number : Nat) (data : PImage) : Option EncodeState :=
  let tr := st.tracker.set_next_frame data
  if frame_number = 1 then some ⟨tr.set_first_image data, st.frame_maps, st.consecutive⟩
  else
    match tr.previous_frame, tr.current_frame with
    | some prev, some cur =>
      let s := compare_to_previous_frame b thr w h prev cur tr st.consecutive
      some ⟨s.tracker, st.frame_maps ++ [s.tokens], s.consecutive⟩
    | _, _ => none

/-- The `for frame in enumerate(self.video)` loop of `Whitewater.encode`:
`n` frames have been processed so far, so the next `frame_number` is `n+1`. -/
def process_frames (b : Nat) (thr : Rat) (w h : Nat) :
    Nat → EncodeState → List PImage → Option EncodeState
  | _, st, [] => some st
  | n, st, f :: rest =>
    match process_frame b thr w h st (n + 1) f with
    | none => none
    | some st2 => process_frames b thr w h (n + 1) st2 rest

/-- The manifest record written by `Whitewater._save_manifest`. -/
structure Manifest where
  version : Nat
  frameCount : Nat
  blockSize : Nat
  imagesRequired : Int
  videoWidth : Nat
  videoHeight : Nat
  sourceGrid : Nat
  framesPerSecond : Rat
  format : String
  frames : List (Option String)

/-- One frame-map string: run tokens serialized by `_add_to_framemap` in flush
order and concatenated (`none` models the crash when a value does not fit the
padded width). -/
def framemapString (tokens : List Token) : Option String :=
  tokens.foldl
    (fun acc tk => acc.bind (fun str => (add_to_framemap tk.2 tk.1).map (fun t => str ++ t)))
    (some "")

/-- `Whitewater.encode` followed by `_save_manifest` for a decoded video with
frame buffers `frames`, source size `w × h` and frame rate `fps`: scan all
frames, then assemble the manifest with `imagesRequired = diffmap_count`
(that is, `len(tracker.diffmaps) - 1`) and one frame-map string per frame
after the first. -/
def encodeVideo (b g : Nat) (thr : Rat) (w h : Nat) (fps : Rat) (format : String)
    (frames : List PImage) : Option Manifest :=
  (process_frames b thr w h 0 ⟨FrameTracker.init b g, [], 0⟩ frames).map fun st =>
    ⟨1, frames.length, b, st.tracker.diffmap_count, w, h, g, fps, format,
      st.frame_maps.map framemapString⟩

theorem blocksEqual_self (b : Nat) (im : PImage) : blocksEqual b im im = true := by
  unfold blocksEqual
  rw [List.all_eq_true]
  intro y hy
  rw [List.all_eq_true]
  intro x hx
  simp

theorem frameDiffers_self (b : Nat) (thr : Rat) (w h : Nat) (f : PImage) (row col : Nat) :
    frameDiffers b thr w h f f row col = false := by
  unfold frameDiffers compare_images
  rw [if_pos (blocksEqual_self b (cropBlock b w h f row col))]

theorem scanFrame_no_diff (differs : Nat → Nat → Bool) (rows cols : Nat) (tr : FrameTracker)
    (c0 : Nat) (hd : ∀ r c, differs r c = false) :
    (scanFrame differs rows cols tr c0).tokens = [] ∧
    (scanFrame differs rows cols tr c0).tracker = tr := by
  have hstep : ∀ row j (s : ScanState), s.consecutive = 0 → colFold differs cols row s j = s := by
    intro row j
    induction j with
    | zero =>
      intro s h
      rfl
    | succ j ih =>
      intro s h
      rw [colFold_succ, ih s h, scanStep_not_diff_zero differs cols row j s (hd row j) h]
  have hrowf : ∀ row (s : ScanState), scanRow differs cols row s = ⟨s.tracker, 0, s.tokens⟩ := by
    intro row s
    rw [scanRow_eq, hstep row cols ⟨s.tracker, 0, s.tokens⟩ rfl]
    dsimp only
    rw [if_neg (by omega)]
  have hfold : ∀ r, (rowFold differs cols tr c0 r).tokens = [] ∧
      (rowFold differs cols tr c0 r).tracker = tr := by
    intro r
    induction r with
    | zero => exact ⟨rfl, rfl⟩
    | succ r ih =>
      rw [rowFold_succ, hrowf r (rowFold differs cols tr c0 r)]
      exact ⟨ih.1, ih.2⟩
  rw [scanFrame_eq_rowFold]
  exact hfold rows

theorem process_frames_identical (b : Nat) (thr : Rat) (w h : Nat) (f0 : PImage) :
    ∀ (frames : List PImage), (∀ f ∈ frames, f = f0) →
    ∀ (n : Nat) (st : EncodeState), 1 ≤ n → st.tracker.current_frame = some f0 →
    ∃ st2 : EncodeState, process_frames b thr w h n st frames = some st2 ∧
      st2.tracker.numImages = st.tracker.numImages ∧
      st2.frame_maps = st.frame_maps ++ List.replicate frames.length ([] : List Token) := by
  intro frames
  induction frames with
  | nil =>
    intro _ n st hn hcur
    exact ⟨st, rfl, rfl, by simp⟩
  | cons f rest ih =>
    intro hall n st hn hcur
    have hf : f = f0 := hall f (List.mem_cons_self ..)
    subst hf
    have hcmp := scanFrame_no_diff (frameDiffers b thr w h f f) ((h + b - 1) / b)
      ((w + b - 1) / b) (st.tracker.set_next_frame f) st.consecutive
      (fun r c => frameDiffers_self b thr w h f r c)
    have hpf : process_frame b thr w h st (n + 1) f
        = some ⟨(compare_to_previous_frame b thr w h f f (st.tracker.set_next_frame f)
              st.consecutive).tracker,
            st.frame_maps ++ [(compare_to_previous_frame b thr w h f f
              (st.tracker.set_next_frame f) st.consecutive).tokens],
            (compare_to_previous_frame b thr w h f f (st.tracker.set_next_frame f)
              st.consecutive).consecutive⟩ := by
      unfold process_frame
      rw [if_neg (by omega)]
      have h1 : (st.tracker.set_next_frame f).previous_frame = some f := hcur
      have h2 : (st.tracker.set_next_frame f).current_frame = some f := rfl
      rw [h1, h2]
    have hp : process_frames b thr w h n st (f :: rest)
        = process_frames b thr w h (n + 1)
            ⟨(compare_to_previous_frame b thr w h f f (st.tracker.set_next_frame f)
                st.consecutive).tracker,
              st.frame_maps ++ [(compare_to_previous_frame b thr w h f f
                (st.tracker.set_next_frame f) st.consecutive).tokens],
              (compare_to_previous_frame b thr w h f f (st.tracker.set_next_frame f)
                st.consecutive).consecutive⟩ rest := by
      show (match process_frame b thr w h st (n + 1) f with
            | none => none
            | some st2 => process_frames b thr w h (n + 1) st2 rest) = _
      rw [hpf]
    have hstr : (compare_to_previous_frame b thr w h f f (st.tracker.set_next_frame f)
        st.consecutive).tracker = st.tracker.set_next_frame f := hcmp.2
    have htk : (compare_to_previous_frame b thr w h f f (st.tracker.set_next_frame f)
        st.consecutive).tokens = [] := hcmp.1
    have hcur2 : ((⟨(compare_to_previous_frame b thr w h f f (st.tracker.set_next_frame f)
          st.consecutive).tracker,
        st.frame_maps ++ [(compare_to_previous_frame b thr w h f f
          (st.tracker.set_next_frame f) st.consecutive).tokens],
        (compare_to_previous_frame b thr w h f f (st.tracker.set_next_frame f)
          st.consecutive).consecutive⟩ : EncodeState)).tracker.current_frame = some f := by
      show (compare_to_previous_frame b thr w h f f (st.tracker.set_next_frame f)
          st.consecutive).tracker.current_frame = some f
      rw [hstr]
      rfl
    obtain ⟨st3, hrun, hni, hfm⟩ := ih (fun g hg => hall g (List.mem_cons_of_mem _ hg)) (n + 1)
      ⟨(compare_to_previous_frame b thr w h f f (st.tracker.set_next_frame f)
          st.consecutive).tracker,
        st.frame_maps ++ [(compare_to_previous_frame b thr w h f f
          (st.tracker.set_next_frame f) st.consecutive).tokens],
        (compare_to_previous_frame b thr w h f f (st.tracker.set_next_frame f)
          st.consecutive).consecutive⟩ (by omega) hcur2
    refine ⟨st3, ?_, ?_, ?_⟩
    · rw [hp]
      exact hrun
    · rw [hni]
      show (compare_to_previous_frame b thr w h f f (st.tracker.set_next_frame f)
          st.consecutive).tracker.numImages = st.tracker.numImages
      rw [hstr]
      rfl
    · rw [hfm]
      dsimp only
      rw [htk]
      rw [List.append_assoc]
      rfl

/-- C1 counterexample: a 2-frame video of identical 1×1 frames is encoded with
`imagesRequired = 1` (the blank diffmap allocated alongside the baseline),
contradicting the claimed value 0. -/
theorem C1_counterexample :
    (encodeVideo 1 2 1 1 1 1 "JPEG"
        [fun _ _ => (0, 0, 0), fun _ _ => (0, 0, 0)]).map Manifest.imagesRequired
      = some 1 ∧ (1 : Int) ≠ 0 := by
  exact ⟨by decide, by decide⟩

/-- C1 (amended): for every source video of at least two pixel-identical frames
(blocksize ≥ 1), encode produces a manifest in which `imagesRequired` equals 1
— not 0: `set_first_image` stores the baseline frame AND allocates a blank
diffmap, and `diffmap_count` is `len(images) - 1` — and every frame-map string
is the empty string. -/
theorem C1_identical_frames_amended (b g : Nat) (thr : Rat) (w h : Nat) (fps : Rat)
    (format : String) (frames : List PImage) (f0 : PImage)
    (hb : 1 ≤ b) (hlen : 2 ≤ frames.length) (hall : ∀ f ∈ frames, f = f0) :
    ∃ m : Manifest, encodeVideo b g thr w h fps format frames = some m ∧
      m.imagesRequired = 1 ∧ ∀ fm ∈ m.frames, fm = some "" := by
  cases frames with
  | nil => simp at hlen
  | cons f rest =>
    have hf : f = f0 := hall f (List.mem_cons_self ..)
    subst hf
    unfold encodeVideo
    have hfirst : process_frames b thr w h 0 ⟨FrameTracker.init b g, [], 0⟩ (f :: rest)
        = process_frames b thr w h 1
            ⟨((FrameTracker.init b g).set_next_frame f).set_first_image f, [], 0⟩ rest := rfl
    obtain ⟨st2, hrun, hni, hfm⟩ := process_frames_identical b thr w h f rest
      (fun g2 hg2 => hall g2 (List.mem_cons_of_mem _ hg2)) 1
      ⟨((FrameTracker.init b g).set_next_frame f).set_first_image f, [], 0⟩ (le_refl 1) rfl
    rw [hfirst, hrun]
    refine ⟨_, rfl, ?_, ?_⟩
    · show st2.tracker.diffmap_count = 1
      rw [FrameTracker.diffmap_count, hni]
      show ((2 : Nat) : Int) - 1 = 1
      decide
    · show ∀ fm ∈ st2.frame_maps.map framemapString, fm = some ""
      intro fm hfmem
      rw [hfm] at hfmem
      simp only [List.nil_append] at hfmem
      obtain ⟨tks, htks, rfl⟩ := List.mem_map.mp hfmem
      have htkeq : tks = [] := List.eq_of_mem_replicate htks
      subst htkeq
      rfl

/-- Witness for the amended C1: a concrete 2-frame identical 2×2 video,
evaluated through the theorem. -/
theorem C1_identical_frames_amended_witness :
    ∃ m : Manifest, encodeVideo 2 3 1 2 2 1 "PNG"
        [fun _ _ => (5, 5, 5), fun _ _ => (5, 5, 5)] = some m ∧
      m.imagesRequired = 1 ∧ ∀ fm ∈ m.frames, fm = some "" := by
  refine C1_identical_frames_amended 2 3 1 2 2 1 "PNG" _ (fun _ _ => (5, 5, 5))
    (by norm_num) (by decide) ?_
  intro f hf
  rcases List.mem_cons.mp hf with h1 | h2
  · exact h1
  · rcases List.mem_cons.mp h2 with h3 | h4
    · exact h3
    · cases h4
